import Mathlib

/-!
# Verification of the ProdCalc expression engine (src/script.js)

Shallow embedding of the calculator core: tokenizer (`tokenize`),
shunting-yard converter (`toRPN`), RPN evaluator (`evalRPN`), driver
(`evaluateExpression`) and display formatter (`formatNumber`).

Modelling conventions:
* JS strings are `List Char`.
* JS numbers (IEEE doubles) are modelled by `JNum`: either an exact
  rational (`JNum.fin`) or a non-finite value (`JNum.nan`, standing for
  any of NaN / +Infinity / -Infinity, which the program never
  distinguishes: `isFinite` is false on all of them).  Rational
  arithmetic is exact where the double arithmetic of the concrete test
  inputs is exact; operations whose double result is in general not
  representable as the exact rational (`Math.sqrt` on a non-square,
  `Math.pow` with a non-integer exponent) are modelled as non-finite.
* Each `throw new Error(...)` site of the source is mapped to a
  constructor of `EvalErr` (named after the spec's error taxonomy):
  line 70 (`Invalid character`) ↦ `lex`, line 93/102
  (`Mismatched parentheses`) ↦ `mismatchedParen`, line 119
  (`Invalid percent`) and line 123 (`Invalid expression`, operand
  underflow) ↦ `stackUnderflow`, line 130 (`Divide by zero`) ↦
  `divideByZero`, line 133 (`Unknown op`) ↦ `unknownOp`, line 110
  (`Unknown function`) ↦ `unknownFunction`, line 137
  (`Func missing arg`) ↦ `functionArgMissing`, line 142
  (`Invalid expression`, final stack count) ↦ `malformedExpression`.
* JS arrays used as stacks (`ops` in `toRPN`, `st` in `evalRPN`) grow at
  the end; they are modelled as Lean lists whose head is the stack top.
  The output array `out` keeps JS order (append at the end).
-/

deriving instance DecidableEq for Except

namespace Cal

/-- Source regex test, ASCII digit class. -/
def isDigit (c : Char) : Bool := '0' ≤ c && c ≤ '9'

/-- Source whitespace test (the ASCII part of the JS `\s` class;
the Unicode additions are irrelevant to the engine's behaviour). -/
def isWhite (c : Char) : Bool :=
  c = ' ' || c = '\t' || c = '\n' || c = '\x0d' || c = '\x0b' || c = '\x0c'

/-- Source operator-character test. -/
def isOperator (c : Char) : Bool :=
  c = '+' || c = '-' || c = '*' || c = '/' || c = '^'

/-- Source letter test. -/
def isLetter (c : Char) : Bool :=
  ('a' ≤ c && c ≤ 'z') || ('A' ≤ c && c ≤ 'Z')

/-- Source name-continuation class (letters and digits). -/
def isNameChar (c : Char) : Bool := isLetter c || isDigit c

/-- Source number-run class (digits and dots). -/
def isNumChar (c : Char) : Bool := isDigit c || c = '.'

/-- Operator precedence, as in the source. -/
def precedence (op : Char) : Nat :=
  if op = '+' || op = '-' then 1
  else if op = '*' || op = '/' then 2
  else if op = '^' then 3
  else 0

/-- Right-associativity flag, as in the source. -/
def isRightAssoc (op : Char) : Bool := op = '^'

/-- Token kinds produced by `tokenize` (plus the synthetic `%` operator
token that `toRPN` inserts): `{type:'num'}`, `{type:'op'}`,
`{type:'func'}`, `{type:'percent'}`, `{type:'('}`, `{type:')'}`. -/
inductive Tok where
  | num (s : List Char)
  | op (c : Char)
  | func (s : List Char)
  | percent
  | lparen
  | rparen
deriving DecidableEq, Repr

/-- The spec's error taxonomy, one constructor per `throw` site of the
source (see the header comment for the mapping). -/
inductive EvalErr where
  | lex (c : Char)
  | mismatchedParen
  | stackUnderflow
  | divideByZero
  | unknownOp (c : Char)
  | unknownFunction (name : List Char)
  | functionArgMissing
  | malformedExpression
deriving DecidableEq, Repr

/-- A JS number: an exactly-represented rational, or a non-finite value
(NaN / ±Infinity, which `isFinite` rejects alike). -/
inductive JNum where
  | fin (q : ℚ)
  | nan
deriving DecidableEq, Repr

namespace JNum

/-- JS `a + b` (NaN-propagating). -/
def add : JNum → JNum → JNum
  | fin a, fin b => fin (a + b)
  | _, _ => nan

/-- JS `a - b` (NaN-propagating). -/
def sub : JNum → JNum → JNum
  | fin a, fin b => fin (a - b)
  | _, _ => nan

/-- JS `a * b` (NaN-propagating; `0 * Infinity = NaN` and the like are
all non-finite inputs here, so propagation is faithful). -/
def mul : JNum → JNum → JNum
  | fin a, fin b => fin (a * b)
  | _, _ => nan

/-- JS `a / b`.  Division by zero gives ±Infinity or NaN in JS, all
modelled `nan`; the evaluator guards `b === 0` before dividing, so that
case is unreachable from `evalRPN`'s `/`. -/
def div : JNum → JNum → JNum
  | fin a, fin b => if b = 0 then nan else fin (a / b)
  | _, _ => nan

/-- JS `Math.pow(a, b)`.  `x ** 0 = 1` for every `x` (NaN included);
a NaN in any other position propagates; an integer exponent is exact
(`0 ** negative = Infinity`, non-finite); a non-integer exponent
generally yields an irrational (or NaN) double, modelled non-finite. -/
def pow : JNum → JNum → JNum
  | _, fin 0 => fin 1
  | nan, _ => nan
  | _, nan => nan
  | fin a, fin b =>
    if b.den = 1 then
      if 0 ≤ b.num then fin (a ^ b.num.toNat)
      else if a = 0 then nan
      else fin ((a ^ b.num.natAbs)⁻¹)
    else nan

/-- JS `Math.sqrt(a)`: NaN on negative input; exact on a rational whose
numerator and denominator are perfect squares; any other double result
is irrational, hence not exactly representable, modelled non-finite. -/
def sqrt : JNum → JNum
  | nan => nan
  | fin a =>
    if a < 0 then nan
    else if Nat.sqrt a.num.toNat * Nat.sqrt a.num.toNat = a.num.toNat
            ∧ Nat.sqrt a.den * Nat.sqrt a.den = a.den then
      fin ((Nat.sqrt a.num.toNat : ℚ) / (Nat.sqrt a.den : ℚ))
    else nan

end JNum

/-- Numeric value of a digit character. -/
def digitVal (c : Char) : Nat := c.toNat - '0'.toNat

/-- Value of a big-endian digit string. -/
def natOfDigits (s : List Char) : Nat :=
  s.foldl (fun acc c => 10 * acc + digitVal c) 0

/-- JS `Number(text)` restricted to the texts the tokenizer can produce
(runs of digits and `.`): at most one `.` and at least one digit parse
exactly; two or more `.`, or no digit at all (`"."`), give NaN.
(`Number("")` is 0; the empty text never reaches this point.) -/
def jsNum (s : List Char) : JNum :=
  if s = [] then .fin 0
  else if ¬ s.all isNumChar then .nan
  else if 2 ≤ s.count '.' then .nan
  else
    let intPart := s.takeWhile (· ≠ '.')
    let fracPart := (s.dropWhile (· ≠ '.')).drop 1
    if intPart = [] ∧ fracPart = [] then .nan
    else .fin ((natOfDigits (intPart ++ fracPart) : ℚ) / 10 ^ fracPart.length)

/-- Unary-sign test of source line 55: a pending `+`/`-` gets a
synthetic zero when there is no previous token, or the previous token is
a left parenthesis or an operator.  `acc` is the token array built so
far; the source inspects its last element. -/
def needZero (acc : List Tok) : Bool :=
  match acc.getLast? with
  | none => true
  | some .lparen => true
  | some (.op _) => true
  | _ => false

/-- Main loop of `tokenize` (source lines 39–73); `acc` is the `tokens`
array built so far.  `fuel` makes the recursion structural: every
iteration of the source loop consumes at least one character, so fuel
equal to the input length never runs out (the exhausted-fuel branch is
unreachable from `tokenize`). -/
def tokenizeGo : ℕ → List Char → List Tok → Except EvalErr (List Tok)
  | _, [], acc => .ok acc
  | 0, _ :: _, acc => .ok acc
  | fuel + 1, c :: cs, acc =>
    if isWhite c then tokenizeGo fuel cs acc
    else if isDigit c || c = '.' then
      tokenizeGo fuel (cs.dropWhile isNumChar) (acc ++ [.num (c :: cs.takeWhile isNumChar)])
    else if c = '(' then tokenizeGo fuel cs (acc ++ [.lparen])
    else if c = ')' then tokenizeGo fuel cs (acc ++ [.rparen])
    else if c = '%' then tokenizeGo fuel cs (acc ++ [.percent])
    else if isOperator c then
      if (c = '+' || c = '-') && needZero acc then
        tokenizeGo fuel cs (acc ++ [.num ['0'], .op c])
      else tokenizeGo fuel cs (acc ++ [.op c])
    else if isLetter c then
      tokenizeGo fuel (cs.dropWhile isNameChar) (acc ++ [.func (c :: cs.takeWhile isNameChar)])
    else .error (.lex c)

/-- Source `tokenize(s)` (lines 39–73). -/
def tokenize (s : List Char) : Except EvalErr (List Tok) := tokenizeGo s.length s []

/-- Domination test of source line 85: the incoming operator `c` pops
the stack-top operator `d` when `d`'s precedence is strictly higher
(right-associative `c`) or at least as high (left-associative `c`). -/
def shouldPop (c d : Char) : Bool :=
  (isRightAssoc c && decide (precedence c < precedence d))
    || (!isRightAssoc c && decide (precedence c ≤ precedence d))

/-- Pop loop of the operator case (source lines 83–88): pop while the
stack top is an operator that dominates the incoming operator `c`.
Returns the popped run (in pop order) and the remaining stack. -/
def popOps (c : Char) : List Tok → List Tok × List Tok
  | [] => ([], [])
  | t :: rest =>
    match t with
    | .op d =>
      if shouldPop c d then
        let pr := popOps c rest
        (.op d :: pr.1, pr.2)
      else ([], .op d :: rest)
    | _ => ([], t :: rest)

/-- Right-parenthesis pop loop (source line 92): pop anything that is
not a `(`; `none` when the stack runs out without one.  On success,
returns the popped run and the stack below the discarded `(`. -/
def popToLParen : List Tok → Option (List Tok × List Tok)
  | [] => none
  | .lparen :: rest => some ([], rest)
  | t :: rest => (popToLParen rest).map (fun pr => (t :: pr.1, pr.2))

/-- End-of-input flush of `toRPN` (source lines 100–104): pop everything
to the output; a leftover parenthesis is a mismatch. -/
def flushOps (out : List Tok) : List Tok → Except EvalErr (List Tok)
  | [] => .ok out
  | t :: rest =>
    if t = .lparen || t = .rparen then .error .mismatchedParen
    else flushOps (out ++ [t]) rest

/-- Main loop of `toRPN` (source lines 78–99), with output `out` and
operator stack `ops` (list head = stack top). -/
def shuntGo : List Tok → List Tok → List Tok → Except EvalErr (List Tok)
  | [], out, ops => flushOps out ops
  | t :: ts, out, ops =>
    match t with
    | .num s => shuntGo ts (out ++ [.num s]) ops
    | .func f => shuntGo ts out (.func f :: ops)
    | .percent => shuntGo ts (out ++ [.percent, .op '%']) ops
    | .op c =>
      let pr := popOps c ops
      shuntGo ts (out ++ pr.1) (.op c :: pr.2)
    | .lparen => shuntGo ts out (.lparen :: ops)
    | .rparen =>
      match popToLParen ops with
      | none => .error .mismatchedParen
      | some pr =>
        match pr.2 with
        | .func f :: rest => shuntGo ts (out ++ pr.1 ++ [.func f]) rest
        | rest => shuntGo ts (out ++ pr.1) rest

/-- Source `toRPN(tokens)` (lines 75–106). -/
def toRPN (ts : List Tok) : Except EvalErr (List Tok) := shuntGo ts [] []

/-- Source `callFunc(name, args)` (lines 108–111): the function table is
the if-chain; its only entry is `sqrt`. -/
def callFunc (name : List Char) (a : JNum) : Except EvalErr JNum :=
  if name = "sqrt".toList then .ok a.sqrt
  else .error (.unknownFunction name)

/-- Binary-operator switch of `evalRPN` (source lines 125–134), applied
to the popped operands `a` (pushed first) and `b`. -/
def applyBin (c : Char) (a b : JNum) : Except EvalErr JNum :=
  if c = '+' then .ok (a.add b)
  else if c = '-' then .ok (a.sub b)
  else if c = '*' then .ok (a.mul b)
  else if c = '/' then
    if b = .fin 0 then .error .divideByZero else .ok (a.div b)
  else if c = '^' then .ok (a.pow b)
  else .error (.unknownOp c)

/-- One token of the `evalRPN` loop (source lines 115–141).  A token
with no matching branch in the source (`percent`, parentheses) falls
through the if-chain and is skipped. -/
def evalStep (st : List JNum) : Tok → Except EvalErr (List JNum)
  | .num s => .ok (jsNum s :: st)
  | .op c =>
    if c = '%' then
      match st with
      | [] => .error .stackUnderflow
      | a :: rest => .ok (a.div (.fin 100) :: rest)
    else
      match st with
      | b :: a :: rest => (applyBin c a b).map (· :: rest)
      | _ => .error .stackUnderflow
  | .func f =>
    match st with
    | [] => .error .functionArgMissing
    | a :: rest => (callFunc f a).map (· :: rest)
  | _ => .ok st

/-- The `evalRPN` loop over the whole RPN sequence. -/
def evalSteps (ts : List Tok) (st : List JNum) : Except EvalErr (List JNum) :=
  match ts with
  | [] => .ok st
  | t :: rest => (evalStep st t).bind (evalSteps rest)

/-- Source `evalRPN(rpn)` (lines 113–144): run the loop on an empty
stack; the final stack must hold exactly one value. -/
def evalRPN (rpn : List Tok) : Except EvalErr JNum :=
  (evalSteps rpn []).bind fun st =>
    match st with
    | [v] => .ok v
    | _ => .error .malformedExpression

/-- JS `s.trim()`: strip whitespace from both ends. -/
def strTrim (s : List Char) : List Char :=
  ((s.dropWhile isWhite).reverse.dropWhile isWhite).reverse

/-- Source `evaluateExpression(s)` (lines 146–152): empty or blank input
short-circuits to 0 before the tokenizer, converter or evaluator run. -/
def evaluateExpression (s : List Char) : Except EvalErr JNum :=
  if s = [] || strTrim s = [] then .ok (.fin 0)
  else (tokenize s).bind fun ts => (toRPN ts).bind evalRPN

/-- JS `Math.round(q)`: round half toward positive infinity. -/
def jsRound (q : ℚ) : ℤ := ⌊q + 1/2⌋

/-- Decimal digit character. -/
def digitChar (n : ℕ) : Char := Char.ofNat ('0'.toNat + n)

/-- Decimal rendering of a natural number, with structural fuel (one
unit per digit; `n + 1` always suffices). -/
def natToStringGo : ℕ → ℕ → List Char
  | 0, _ => []
  | fuel + 1, n =>
    if n < 10 then [digitChar n]
    else natToStringGo fuel (n / 10) ++ [digitChar (n % 10)]

/-- Decimal rendering of a natural number. -/
def natToString (n : ℕ) : List Char := natToStringGo (n + 1) n

/-- JS `String(n)` on an integer-valued number.  Decimal rendering; JS
switches to exponential notation only at magnitude 1e21 and beyond,
outside the range touched by any claim. -/
def intToString (n : ℤ) : List Char :=
  if n < 0 then '-' :: natToString n.natAbs else natToString n.natAbs

/-- Nonnegative case of `toFixed(12)`: the nearest multiple of 10⁻¹²
(ties toward the larger), rendered with exactly 12 fractional digits. -/
def toFixed12Abs (q : ℚ) : List Char :=
  let m := (⌊q * 10 ^ 12 + 1/2⌋).toNat
  let d := natToString (m % 10 ^ 12)
  natToString (m / 10 ^ 12) ++ '.' :: (List.replicate (12 - d.length) '0' ++ d)

/-- JS `n.toFixed(12)`: the ES algorithm handles the sign first and then
picks, of the two nearest 12-digit decimals, the larger on a tie. -/
def toFixed12 (q : ℚ) : List Char :=
  if q < 0 then '-' :: toFixed12Abs (-q) else toFixed12Abs q

/-- The `replace` call of source line 170: delete the maximal run of
trailing zeros together with a `.` standing immediately before it. -/
def stripTrailingZeros (s : List Char) : List Char :=
  let r := s.reverse
  if r.takeWhile (· = '0') = [] then s
  else
    match r.dropWhile (· = '0') with
    | '.' :: r2 => r2.reverse
    | r2 => r2.reverse

/-- Source `formatNumber(n)` (lines 165–172).  The literal `1e-12` is
the double nearest to 10⁻¹², modelled as the exact 10⁻¹². -/
def formatNumber (n : JNum) : List Char :=
  match n with
  | .nan => "Error".toList
  | .fin q =>
    if |q - (jsRound q : ℚ)| < 1 / 10 ^ 12 then intToString (jsRound q)
    else stripTrailingZeros (toFixed12 q)

/-! ## Spec-side reference definitions

These definitions transcribe the specification's words (standard
precedence- and associativity-correct reading; Dyck balance of
parentheses); the claims compare the program against them. -/

/-- Abstract syntax of the claim-C1 grammar: number literals and the
five binary operators.  A literal keeps its token text; its numeric
value is whatever the evaluator's numeric conversion assigns to it. -/
inductive Expr where
  | num (s : List Char)
  | bin (c : Char) (l r : Expr)

/-- Postfix (RPN) rendering of an expression: operands first, operator
last. -/
def Expr.rpn : Expr → List Tok
  | num s => [.num s]
  | bin c l r => l.rpn ++ r.rpn ++ [.op c]

/-- All operators of the expression are among the five binary operator
characters the grammar admits. -/
def Expr.Good : Expr → Prop
  | num _ => True
  | bin c l r => isOperator c = true ∧ l.Good ∧ r.Good

/-- Spec-side reference evaluator for claim C1: evaluate the left
operand, then the right operand, then apply the operator — the grouping
determined by the abstract syntax tree, with the same double-precision
operations the program uses. -/
def specEval : Expr → Except EvalErr JNum
  | .num s => .ok (jsNum s)
  | .bin c l r =>
    (specEval l).bind fun a => (specEval r).bind fun b => applyBin c a b

/-- Spec-side grammar for claim C1: `Phrase k ts e` says the token
string `ts` is a phrase of precedence level `k` (1 = additive,
2 = multiplicative, 3 = exponentiation, 4 = atom) whose standard
precedence- and associativity-correct reading is `e`.  Additive and
multiplicative operators recurse on the left at their own level
(left-associativity); `^` recurses on the right at its own level
(right-associativity). -/
inductive Phrase : ℕ → List Tok → Expr → Prop where
  | num (s : List Char) : Phrase 4 [.num s] (.num s)
  | paren {ts e} : Phrase 1 ts e → Phrase 4 (.lparen :: ts ++ [.rparen]) e
  | lift {k ts e} : Phrase (k + 1) ts e → Phrase k ts e
  | addsub {c ts₁ ts₂ l r} : c = '+' ∨ c = '-' →
      Phrase 1 ts₁ l → Phrase 2 ts₂ r →
      Phrase 1 (ts₁ ++ .op c :: ts₂) (.bin c l r)
  | muldiv {c ts₁ ts₂ l r} : c = '*' ∨ c = '/' →
      Phrase 2 ts₁ l → Phrase 3 ts₂ r →
      Phrase 2 (ts₁ ++ .op c :: ts₂) (.bin c l r)
  | pow {ts₁ ts₂ l r} : Phrase 4 ts₁ l → Phrase 3 ts₂ r →
      Phrase 3 (ts₁ ++ .op '^' :: ts₂) (.bin '^' l r)

/-- Spec-side Dyck balance of the parentheses of a token string, with
`n` pending open parentheses: every prefix closes at most as many as it
opens, and the totals agree. -/
def parenBal : List Tok → ℕ → Bool
  | [], n => n == 0
  | .lparen :: ts, n => parenBal ts (n + 1)
  | .rparen :: ts, n => decide (0 < n) && parenBal ts (n - 1)
  | _ :: ts, n => parenBal ts n

/-! ## Helper lemmas: computation -/

theorem except_bind_ok {ε α β : Type} (x : α) (f : α → Except ε β) :
    (Except.ok x).bind f = f x := rfl

theorem except_bind_error {ε α β : Type} (e : ε) (f : α → Except ε β) :
    (Except.error e : Except ε α).bind f = .error e := rfl

theorem except_map_ok {ε α β : Type} (x : α) (f : α → β) :
    Except.map f (Except.ok x : Except ε α) = .ok (f x) := rfl

theorem except_map_error {ε α β : Type} (e : ε) (f : α → β) :
    Except.map f (Except.error e : Except ε α) = .error e := rfl

theorem digitVal0 : digitVal '0' = 0 := rfl
theorem digitVal1 : digitVal '1' = 1 := rfl
theorem digitVal2 : digitVal '2' = 2 := rfl
theorem digitVal3 : digitVal '3' = 3 := rfl
theorem digitVal4 : digitVal '4' = 4 := rfl
theorem digitVal5 : digitVal '5' = 5 := rfl
theorem digitVal8 : digitVal '8' = 8 := rfl
theorem digitVal9 : digitVal '9' = 9 := rfl

/-! ## Helper lemmas: the operator stack -/

theorem precedence_le_three (c : Char) : precedence c ≤ 3 := by
  unfold precedence; split <;> try omega
  split <;> try omega
  split <;> omega

/-- Tokens that the converter can hold on its operator stack while a
claim-C1 phrase is processed: operators and left parentheses. -/
def StackTok (t : Tok) : Prop := (∃ c, t = Tok.op c) ∨ t = Tok.lparen

def OpsOnly (ops : List Tok) : Prop := ∀ t ∈ ops, StackTok t

/-- The stack top cannot be popped by any top-level operator of a
level-`k` phrase: it is empty, a left parenthesis, or an operator of
lower precedence (for level 3 also `^` itself, which right-associativity
keeps from popping). -/
def HeadSafe (k : ℕ) : List Tok → Prop
  | [] => True
  | .lparen :: _ => True
  | .op c :: _ => precedence c < k ∨ (c = '^' ∧ k = 3)
  | _ :: _ => False

theorem HeadSafe.succ {k : ℕ} {ops : List Tok} (h : HeadSafe k ops) :
    HeadSafe (k + 1) ops := by
  match ops with
  | [] => trivial
  | .lparen :: _ => trivial
  | .op c :: _ =>
    simp only [HeadSafe] at h ⊢
    rcases h with h | ⟨rfl, rfl⟩
    · exact Or.inl (by omega)
    · exact Or.inl (by simp [precedence])
  | .num _ :: _ => exact h.elim
  | .func _ :: _ => exact h.elim
  | .percent :: _ => exact h.elim
  | .rparen :: _ => exact h.elim

theorem popOps_eq_self (c : Char) (ops : List Tok)
    (h : ∀ d tl, ops = Tok.op d :: tl → shouldPop c d = false) :
    popOps c ops = ([], ops) := by
  match ops with
  | [] => rfl
  | .op d :: tl => simp [popOps, h d tl rfl]
  | .num _ :: _ => rfl
  | .func _ :: _ => rfl
  | .percent :: _ => rfl
  | .lparen :: _ => rfl
  | .rparen :: _ => rfl

theorem popOps_append (c : Char) (P ops : List Tok)
    (hP : ∀ t ∈ P, ∃ d, t = Tok.op d ∧ shouldPop c d = true)
    (hstop : popOps c ops = ([], ops)) :
    popOps c (P ++ ops) = (P, ops) := by
  induction P with
  | nil => simpa using hstop
  | cons t P ih =>
    obtain ⟨d, rfl, hpop⟩ := hP t (List.mem_cons_self t P)
    have ih' := ih (fun u hu => hP u (List.mem_cons_of_mem _ hu))
    simp [popOps, hpop, ih']

theorem popToLParen_append (P ops : List Tok)
    (hP : ∀ t ∈ P, t ≠ Tok.lparen) :
    popToLParen (P ++ Tok.lparen :: ops) = some (P, ops) := by
  induction P with
  | nil => rfl
  | cons t P ih =>
    have ht := hP t (List.mem_cons_self t P)
    have ih' := ih (fun u hu => hP u (List.mem_cons_of_mem _ hu))
    match t, ht with
    | .num s, _ => simp [popToLParen, ih']
    | .op c, _ => simp [popToLParen, ih']
    | .func s, _ => simp [popToLParen, ih']
    | .percent, _ => simp [popToLParen, ih']
    | .rparen, _ => simp [popToLParen, ih']

theorem flushOps_ok (out P : List Tok)
    (hP : ∀ t ∈ P, t ≠ Tok.lparen ∧ t ≠ Tok.rparen) :
    flushOps out P = .ok (out ++ P) := by
  induction P generalizing out with
  | nil => simp [flushOps]
  | cons t P ih =>
    have ht := hP t (List.mem_cons_self t P)
    have ih' := ih (out ++ [t]) (fun u hu => hP u (List.mem_cons_of_mem _ hu))
    simp only [flushOps]
    rw [if_neg (by simp [ht.1, ht.2]), ih']
    simp

theorem precedence_plus : precedence '+' = 1 := rfl
theorem precedence_minus : precedence '-' = 1 := rfl
theorem precedence_times : precedence '*' = 2 := rfl
theorem precedence_div : precedence '/' = 2 := rfl
theorem precedence_pow : precedence '^' = 3 := rfl
theorem isRightAssoc_pow : isRightAssoc '^' = true := rfl

/-- Central shunting-yard invariant.  Processing a level-`k` phrase
`ts` (over any continuation `rest`) from state `(out, ops)` whose stack
is safe for level `k` appends a prefix `A` of the phrase's RPN to the
output and leaves the remaining operators `P` (all of precedence at
least `k`) pending on the stack, with `A ++ P` the phrase's full RPN. -/
theorem shunt_phrase {k : ℕ} {ts : List Tok} {e : Expr} (h : Phrase k ts e) :
    ∀ out ops rest, OpsOnly ops → HeadSafe k ops →
      ∃ A P, e.rpn = A ++ P
        ∧ (∀ t ∈ P, ∃ c, t = Tok.op c ∧ k ≤ precedence c)
        ∧ shuntGo (ts ++ rest) out ops = shuntGo rest (out ++ A) (P ++ ops) := by
  induction h with
  | num s =>
    intro out ops rest _ _
    exact ⟨[.num s], [], by simp [Expr.rpn], by simp, by simp [shuntGo]⟩
  | paren h ih =>
    rename_i ts₀ e₀
    intro out ops rest hops _
    have hops' : OpsOnly (Tok.lparen :: ops) := by
      intro t ht
      rcases List.mem_cons.mp ht with rfl | ht
      · exact Or.inr rfl
      · exact hops t ht
    obtain ⟨A, P, hrpn, hP, heq⟩ :=
      ih out (Tok.lparen :: ops) (Tok.rparen :: rest) hops' trivial
    have hPop : ∀ t ∈ P, t ≠ Tok.lparen := by
      intro t ht
      obtain ⟨c, rfl, _⟩ := hP t ht
      simp
    refine ⟨A ++ P, [], by simpa using hrpn, by simp, ?_⟩
    have step0 : (Tok.lparen :: ts₀ ++ [Tok.rparen]) ++ rest
        = Tok.lparen :: (ts₀ ++ Tok.rparen :: rest) := by simp
    rw [step0]
    have step1 : shuntGo (Tok.lparen :: (ts₀ ++ Tok.rparen :: rest)) out ops
        = shuntGo (ts₀ ++ Tok.rparen :: rest) out (Tok.lparen :: ops) := rfl
    rw [step1, heq]
    have step2 : shuntGo (Tok.rparen :: rest) (out ++ A) (P ++ Tok.lparen :: ops)
        = match popToLParen (P ++ Tok.lparen :: ops) with
          | none => .error .mismatchedParen
          | some pr =>
            match pr.2 with
            | Tok.func f :: rest' => shuntGo rest ((out ++ A) ++ pr.1 ++ [Tok.func f]) rest'
            | rest' => shuntGo rest ((out ++ A) ++ pr.1) rest' := rfl
    rw [step2, popToLParen_append P ops hPop]
    cases ops with
    | nil => simp
    | cons t tl =>
      rcases hops t (List.mem_cons_self t tl) with ⟨c, rfl⟩ | rfl <;> simp
  | lift h ih =>
    intro out ops rest hops hhead
    obtain ⟨A, P, hrpn, hP, heq⟩ := ih out ops rest hops hhead.succ
    exact ⟨A, P, hrpn, fun t ht => by
      obtain ⟨c, rfl, hc⟩ := hP t ht
      exact ⟨c, rfl, by omega⟩, heq⟩
  | addsub hc h₁ h₂ ih₁ ih₂ =>
    rename_i c ts₁ ts₂ l r
    intro out ops rest hops hhead
    have hprec : precedence c = 1 := by
      rcases hc with rfl | rfl
      · exact precedence_plus
      · exact precedence_minus
    have hra : isRightAssoc c = false := by
      rcases hc with rfl | rfl <;> rfl
    obtain ⟨A₁, P₁, hrpn₁, hP₁, heq₁⟩ :=
      ih₁ out ops (Tok.op c :: (ts₂ ++ rest)) hops hhead
    have hstop : popOps c ops = ([], ops) := by
      apply popOps_eq_self
      intro d tl hops_eq
      subst hops_eq
      have hhead' : precedence d < 1 ∨ (d = '^' ∧ 1 = 3) := hhead
      rcases hhead' with hd | ⟨rfl, h3⟩
      · simp only [shouldPop, hra, Bool.false_and, Bool.not_false, Bool.true_and,
          Bool.false_or, decide_eq_false_iff_not]
        omega
      · omega
    have hpop : popOps c (P₁ ++ ops) = (P₁, ops) := by
      apply popOps_append c P₁ ops ?_ hstop
      intro t ht
      obtain ⟨d, rfl, hd⟩ := hP₁ t ht
      refine ⟨d, rfl, ?_⟩
      simp only [shouldPop, hra, Bool.false_and, Bool.not_false, Bool.true_and,
        Bool.false_or, decide_eq_true_eq]
      omega
    have hops' : OpsOnly (Tok.op c :: ops) := by
      intro t ht
      rcases List.mem_cons.mp ht with rfl | ht
      · exact Or.inl ⟨c, rfl⟩
      · exact hops t ht
    have hhead₂ : HeadSafe 2 (Tok.op c :: ops) := Or.inl (by omega)
    obtain ⟨A₂, P₂, hrpn₂, hP₂, heq₂⟩ :=
      ih₂ (out ++ A₁ ++ P₁) (Tok.op c :: ops) rest hops' hhead₂
    refine ⟨(A₁ ++ P₁) ++ A₂, P₂ ++ [Tok.op c], ?_, ?_, ?_⟩
    · simp only [Expr.rpn, hrpn₁, hrpn₂]
      simp [List.append_assoc]
    · intro t ht
      rcases List.mem_append.mp ht with ht | ht
      · obtain ⟨d, rfl, hd⟩ := hP₂ t ht
        exact ⟨d, rfl, by omega⟩
      · rw [List.mem_singleton.mp ht]
        exact ⟨c, rfl, by omega⟩
    · have step0 : (ts₁ ++ Tok.op c :: ts₂) ++ rest
          = ts₁ ++ (Tok.op c :: (ts₂ ++ rest)) := by simp
      rw [step0, heq₁]
      have step1 : shuntGo (Tok.op c :: (ts₂ ++ rest)) (out ++ A₁) (P₁ ++ ops)
          = shuntGo (ts₂ ++ rest) ((out ++ A₁) ++ (popOps c (P₁ ++ ops)).1)
              (Tok.op c :: (popOps c (P₁ ++ ops)).2) := rfl
      rw [step1, hpop, heq₂]
      simp [List.append_assoc]
  | muldiv hc h₁ h₂ ih₁ ih₂ =>
    rename_i c ts₁ ts₂ l r
    intro out ops rest hops hhead
    have hprec : precedence c = 2 := by
      rcases hc with rfl | rfl
      · exact precedence_times
      · exact precedence_div
    have hra : isRightAssoc c = false := by
      rcases hc with rfl | rfl <;> rfl
    obtain ⟨A₁, P₁, hrpn₁, hP₁, heq₁⟩ :=
      ih₁ out ops (Tok.op c :: (ts₂ ++ rest)) hops hhead
    have hstop : popOps c ops = ([], ops) := by
      apply popOps_eq_self
      intro d tl hops_eq
      subst hops_eq
      have hhead' : precedence d < 2 ∨ (d = '^' ∧ 2 = 3) := hhead
      rcases hhead' with hd | ⟨rfl, h3⟩
      · simp only [shouldPop, hra, Bool.false_and, Bool.not_false, Bool.true_and,
          Bool.false_or, decide_eq_false_iff_not]
        omega
      · omega
    have hpop : popOps c (P₁ ++ ops) = (P₁, ops) := by
      apply popOps_append c P₁ ops ?_ hstop
      intro t ht
      obtain ⟨d, rfl, hd⟩ := hP₁ t ht
      refine ⟨d, rfl, ?_⟩
      simp only [shouldPop, hra, Bool.false_and, Bool.not_false, Bool.true_and,
        Bool.false_or, decide_eq_true_eq]
      omega
    have hops' : OpsOnly (Tok.op c :: ops) := by
      intro t ht
      rcases List.mem_cons.mp ht with rfl | ht
      · exact Or.inl ⟨c, rfl⟩
      · exact hops t ht
    have hhead₃ : HeadSafe 3 (Tok.op c :: ops) := Or.inl (by omega)
    obtain ⟨A₂, P₂, hrpn₂, hP₂, heq₂⟩ :=
      ih₂ (out ++ A₁ ++ P₁) (Tok.op c :: ops) rest hops' hhead₃
    refine ⟨(A₁ ++ P₁) ++ A₂, P₂ ++ [Tok.op c], ?_, ?_, ?_⟩
    · simp only [Expr.rpn, hrpn₁, hrpn₂]
      simp [List.append_assoc]
    · intro t ht
      rcases List.mem_append.mp ht with ht | ht
      · obtain ⟨d, rfl, hd⟩ := hP₂ t ht
        exact ⟨d, rfl, by omega⟩
      · rw [List.mem_singleton.mp ht]
        exact ⟨c, rfl, by omega⟩
    · have step0 : (ts₁ ++ Tok.op c :: ts₂) ++ rest
          = ts₁ ++ (Tok.op c :: (ts₂ ++ rest)) := by simp
      rw [step0, heq₁]
      have step1 : shuntGo (Tok.op c :: (ts₂ ++ rest)) (out ++ A₁) (P₁ ++ ops)
          = shuntGo (ts₂ ++ rest) ((out ++ A₁) ++ (popOps c (P₁ ++ ops)).1)
              (Tok.op c :: (popOps c (P₁ ++ ops)).2) := rfl
      rw [step1, hpop, heq₂]
      simp [List.append_assoc]
  | pow h₁ h₂ ih₁ ih₂ =>
    rename_i ts₁ ts₂ l r
    intro out ops rest hops hhead
    obtain ⟨A₁, P₁, hrpn₁, hP₁, heq₁⟩ :=
      ih₁ out ops (Tok.op '^' :: (ts₂ ++ rest)) hops hhead.succ
    have hP₁nil : P₁ = [] := by
      cases P₁ with
      | nil => rfl
      | cons t tl =>
        obtain ⟨d, _, hd⟩ := hP₁ t (List.mem_cons_self t tl)
        exact absurd hd (by have := precedence_le_three d; omega)
    subst hP₁nil
    have hpop : popOps '^' ([] ++ ops) = ([], ops) := by
      simp only [List.nil_append]
      apply popOps_eq_self
      intro d tl hops_eq
      have hd3 := precedence_le_three d
      simp only [shouldPop, isRightAssoc_pow, Bool.true_and, Bool.not_true,
        Bool.false_and, Bool.or_false, precedence_pow, decide_eq_false_iff_not]
      omega
    have hops' : OpsOnly (Tok.op '^' :: ops) := by
      intro t ht
      rcases List.mem_cons.mp ht with rfl | ht
      · exact Or.inl ⟨'^', rfl⟩
      · exact hops t ht
    have hhead₃ : HeadSafe 3 (Tok.op '^' :: ops) := Or.inr ⟨rfl, rfl⟩
    obtain ⟨A₂, P₂, hrpn₂, hP₂, heq₂⟩ :=
      ih₂ (out ++ A₁ ++ []) (Tok.op '^' :: ops) rest hops' hhead₃
    refine ⟨(A₁ ++ []) ++ A₂, P₂ ++ [Tok.op '^'], ?_, ?_, ?_⟩
    · simp only [Expr.rpn, hrpn₁, hrpn₂]
      simp [List.append_assoc]
    · intro t ht
      rcases List.mem_append.mp ht with ht | ht
      · obtain ⟨d, rfl, hd⟩ := hP₂ t ht
        exact ⟨d, rfl, by omega⟩
      · rw [List.mem_singleton.mp ht]
        exact ⟨'^', rfl, by rw [precedence_pow]⟩
    · have step0 : (ts₁ ++ Tok.op '^' :: ts₂) ++ rest
          = ts₁ ++ (Tok.op '^' :: (ts₂ ++ rest)) := by simp
      rw [step0, heq₁]
      have step1 : shuntGo (Tok.op '^' :: (ts₂ ++ rest)) (out ++ A₁) ([] ++ ops)
          = shuntGo (ts₂ ++ rest) ((out ++ A₁) ++ (popOps '^' ([] ++ ops)).1)
              (Tok.op '^' :: (popOps '^' ([] ++ ops)).2) := rfl
      rw [step1, hpop, heq₂]
      simp [List.append_assoc]


theorem evalSteps_append (xs ys : List Tok) (st : List JNum) :
    evalSteps (xs ++ ys) st
      = (evalSteps xs st).bind fun st' => evalSteps ys st' := by
  induction xs generalizing st with
  | nil => rfl
  | cons t xs ih =>
    simp only [List.cons_append, evalSteps]
    cases evalStep st t with
    | error e => rfl
    | ok st' => simpa using ih st'

theorem phrase_ne_nil {k : ℕ} {ts : List Tok} {e : Expr}
    (h : Phrase k ts e) : ts ≠ [] := by
  induction h with
  | num s => simp
  | paren h ih => simp
  | lift h ih => exact ih
  | addsub hc h₁ h₂ ih₁ ih₂ => simp
  | muldiv hc h₁ h₂ ih₁ ih₂ => simp
  | pow h₁ h₂ ih₁ ih₂ => simp

theorem phrase_good {k : ℕ} {ts : List Tok} {e : Expr}
    (h : Phrase k ts e) : e.Good := by
  induction h with
  | num s => trivial
  | paren h ih => exact ih
  | lift h ih => exact ih
  | addsub hc h₁ h₂ ih₁ ih₂ =>
    refine ⟨?_, ih₁, ih₂⟩
    rcases hc with rfl | rfl <;> rfl
  | muldiv hc h₁ h₂ ih₁ ih₂ =>
    refine ⟨?_, ih₁, ih₂⟩
    rcases hc with rfl | rfl <;> rfl
  | pow h₁ h₂ ih₁ ih₂ => exact ⟨rfl, ih₁, ih₂⟩

/-- A complete level-1 phrase converts to exactly its RPN rendering. -/
theorem toRPN_phrase {ts : List Tok} {e : Expr} (h : Phrase 1 ts e) :
    toRPN ts = .ok e.rpn := by
  obtain ⟨A, P, hrpn, hP, heq⟩ :=
    shunt_phrase h [] [] [] (fun t ht => absurd ht (List.not_mem_nil t)) trivial
  have : toRPN ts = shuntGo (ts ++ []) [] [] := by rw [List.append_nil]; rfl
  rw [this, heq]
  have hflush : shuntGo [] ([] ++ A) (P ++ []) = flushOps A P := by
    simp only [List.nil_append, List.append_nil]; rfl
  rw [hflush, flushOps_ok A P ?_, hrpn]
  intro t ht
  obtain ⟨c, rfl, _⟩ := hP t ht
  exact ⟨by simp, by simp⟩

/-- Evaluating the RPN of an expression pushes its reference value. -/
theorem evalSteps_rpn {e : Expr} {v : JNum} (hg : e.Good)
    (hv : specEval e = .ok v) :
    ∀ st rest, evalSteps (e.rpn ++ rest) st = evalSteps rest (v :: st) := by
  induction e generalizing v with
  | num s =>
    have hv' : jsNum s = v := by
      simpa [specEval] using hv
    subst hv'
    intro st rest
    rfl
  | bin c l r ihl ihr =>
    obtain ⟨hop, hgl, hgr⟩ := hg
    intro st rest
    simp only [specEval] at hv
    cases hl : specEval l with
    | error err => rw [hl, except_bind_error] at hv; exact absurd hv (by simp)
    | ok a =>
      rw [hl, except_bind_ok] at hv
      cases hr : specEval r with
      | error err => rw [hr, except_bind_error] at hv; exact absurd hv (by simp)
      | ok b =>
        rw [hr, except_bind_ok] at hv
        have hcp : ¬ c = '%' := by
          intro hc
          subst hc
          exact absurd hop (by decide)
        have hrpn : Expr.rpn (.bin c l r) ++ rest
            = l.rpn ++ (r.rpn ++ (Tok.op c :: rest)) := by
          simp [Expr.rpn]
        rw [hrpn, ihl hgl hl, ihr hgr hr]
        have hstep : evalSteps (Tok.op c :: rest) (b :: a :: st)
            = (evalStep (b :: a :: st) (Tok.op c)).bind (evalSteps rest) := rfl
        rw [hstep]
        have : evalStep (b :: a :: st) (Tok.op c) = (applyBin c a b).map (· :: st) := by
          simp only [evalStep, if_neg hcp]
        rw [this, hv, except_map_ok, except_bind_ok]

/-- Evaluating the complete RPN of an expression yields its reference
value. -/
theorem evalRPN_rpn {e : Expr} {v : JNum} (hg : e.Good)
    (hv : specEval e = .ok v) : evalRPN e.rpn = .ok v := by
  have h1 : e.rpn ++ [] = e.rpn := List.append_nil _
  have h2 := evalSteps_rpn hg hv [] []
  rw [h1] at h2
  simp only [evalRPN, h2]
  rfl

/-! ## Helper lemmas: the blank-input guard -/

theorem strTrim_eq_nil_iff {s : List Char} :
    strTrim s = [] ↔ ∀ c ∈ s, isWhite c = true := by
  unfold strTrim
  rw [List.reverse_eq_nil_iff, List.dropWhile_eq_nil_iff]
  constructor
  · intro h c hc
    rcases List.mem_append.mp (by
        rw [List.takeWhile_append_dropWhile (p := isWhite) (l := s)]; exact hc :
        c ∈ s.takeWhile isWhite ++ s.dropWhile isWhite) with hc' | hc'
    · exact List.mem_takeWhile_imp hc'
    · exact h c (List.mem_reverse.mpr hc')
  · intro h c hc
    exact h c ((List.dropWhile_suffix isWhite).subset (List.mem_reverse.mp hc))

theorem tokenizeGo_white {s : List Char} (h : ∀ c ∈ s, isWhite c = true) :
    ∀ fuel acc, tokenizeGo fuel s acc = .ok acc := by
  induction s with
  | nil => intro fuel acc; cases fuel <;> rfl
  | cons c cs ih =>
    intro fuel acc
    cases fuel with
    | zero => rfl
    | succ fuel =>
      have hc := h c (List.mem_cons_self c cs)
      simp only [tokenizeGo, hc, if_true]
      exact ih (fun d hd => h d (List.mem_cons_of_mem c hd)) fuel acc

/-- A successful, nonempty tokenization means the input is not blank,
so the driver does not take the short-circuit branch. -/
theorem evaluateExpression_pipeline {s : List Char} {ts : List Tok}
    (htok : tokenize s = .ok ts) (hne : ts ≠ []) :
    evaluateExpression s = (toRPN ts).bind evalRPN := by
  have hwhite : ¬ ∀ c ∈ s, isWhite c = true := by
    intro hwhite
    have h0 : tokenize s = .ok [] := tokenizeGo_white hwhite s.length []
    rw [htok] at h0
    exact hne (by simpa using h0)
  have h1 : ¬ s = [] := by
    intro h
    subst h
    exact hwhite (fun c hc => absurd hc (List.not_mem_nil c))
  have h2 : ¬ strTrim s = [] := fun h => hwhite (strTrim_eq_nil_iff.mp h)
  unfold evaluateExpression
  rw [if_neg (by simp [h1, h2]), htok, except_bind_ok]

/-! ## Claims -/

/-- C1: for every balanced arithmetic expression built from number
literals, the binary operators `+ - * / ^` and parentheses — i.e. every
input whose token string the standard precedence- and
associativity-correct grammar (`Phrase`, precedence 1 for `+ -`, 2 for
`* /`, 3 for right-associative `^`) derives — `evaluateExpression`
returns exactly the value of that standard reading (`specEval`); in
particular `2+3*4 = 14`, `2^3^2 = 512` and `8-3-2 = 3`. -/
theorem claim_C1_standard_evaluation :
    (∀ (s : List Char) (ts : List Tok) (e : Expr) (v : JNum),
      tokenize s = .ok ts → Phrase 1 ts e → specEval e = .ok v →
      evaluateExpression s = .ok v)
    ∧ evaluateExpression ("2+3*4".toList) = .ok (.fin 14)
    ∧ evaluateExpression ("2^3^2".toList) = .ok (.fin 512)
    ∧ evaluateExpression ("8-3-2".toList) = .ok (.fin 3) := by
  refine ⟨?_, ?_, ?_, ?_⟩
  · intro s ts e v htok hph hv
    rw [evaluateExpression_pipeline htok (phrase_ne_nil hph), toRPN_phrase hph,
      except_bind_ok]
    exact evalRPN_rpn (phrase_good hph) hv
  · have h1 : tokenize "2+3*4".toList
        = .ok [.num ['2'], .op '+', .num ['3'], .op '*', .num ['4']] := rfl
    have h2 : toRPN [.num ['2'], .op '+', .num ['3'], .op '*', .num ['4']]
        = .ok [.num ['2'], .num ['3'], .num ['4'], .op '*', .op '+'] := rfl
    rw [evaluateExpression_pipeline h1 (by simp), h2, except_bind_ok]
    norm_num +decide [evalRPN, evalSteps, evalStep, applyBin, jsNum, natOfDigits,
      digitVal2, digitVal3, digitVal4, JNum.add, JNum.mul, Except.bind, Except.map]
  · have h1 : tokenize "2^3^2".toList
        = .ok [.num ['2'], .op '^', .num ['3'], .op '^', .num ['2']] := rfl
    have h2 : toRPN [.num ['2'], .op '^', .num ['3'], .op '^', .num ['2']]
        = .ok [.num ['2'], .num ['3'], .num ['2'], .op '^', .op '^'] := rfl
    rw [evaluateExpression_pipeline h1 (by simp), h2, except_bind_ok]
    norm_num +decide [evalRPN, evalSteps, evalStep, applyBin, jsNum, natOfDigits,
      digitVal2, digitVal3, JNum.pow, Except.bind, Except.map,
      show (2:ℤ).toNat = 2 from rfl, show (9:ℤ).toNat = 9 from rfl]
  · have h1 : tokenize "8-3-2".toList
        = .ok [.num ['8'], .op '-', .num ['3'], .op '-', .num ['2']] := rfl
    have h2 : toRPN [.num ['8'], .op '-', .num ['3'], .op '-', .num ['2']]
        = .ok [.num ['8'], .num ['3'], .op '-', .num ['2'], .op '-'] := rfl
    rw [evaluateExpression_pipeline h1 (by simp), h2, except_bind_ok]
    norm_num +decide [evalRPN, evalSteps, evalStep, applyBin, jsNum, natOfDigits,
      digitVal8, digitVal3, digitVal2, JNum.sub, Except.bind, Except.map]

/-- Witness for C1: the universal part applied to the one-literal
expression `7`, every hypothesis discharged by computation or an
explicit grammar derivation. -/
theorem claim_C1_standard_evaluation_witness :
    evaluateExpression ("7".toList) = .ok (jsNum ['7']) :=
  claim_C1_standard_evaluation.1 "7".toList [.num ['7']] (.num ['7']) (jsNum ['7'])
    rfl (Phrase.lift (Phrase.lift (Phrase.lift (Phrase.num ['7'])))) rfl

/-- C2: the tokenizer emits a synthetic `Number("0")` immediately before
a `+`/`-` operator token exactly when there is no prior token, or the
prior token is a left parenthesis or an operator (`needZero`), and never
for `*` or `/`; consequently `-5` tokenizes as
`[Number(0), Operator(-), Number(5)]` and `-5+2` evaluates to `-3`. -/
theorem claim_C2_unary_normalization :
    (∀ (fuel : ℕ) (cs : List Char) (acc : List Tok) (c : Char),
      c = '+' ∨ c = '-' →
      tokenizeGo (fuel + 1) (c :: cs) acc
        = tokenizeGo fuel cs
            (acc ++ if needZero acc then [.num ['0'], .op c] else [.op c]))
    ∧ (∀ acc : List Tok, needZero acc = true ↔
        acc.getLast? = none ∨ acc.getLast? = some .lparen
          ∨ ∃ d, acc.getLast? = some (.op d))
    ∧ (∀ (fuel : ℕ) (cs : List Char) (acc : List Tok) (c : Char),
      c = '*' ∨ c = '/' →
      tokenizeGo (fuel + 1) (c :: cs) acc = tokenizeGo fuel cs (acc ++ [.op c]))
    ∧ tokenize "-5".toList = .ok [.num ['0'], .op '-', .num ['5']]
    ∧ evaluateExpression "-5+2".toList = .ok (.fin (-3)) := by
  refine ⟨?_, ?_, ?_, rfl, ?_⟩
  · intro fuel cs acc c hc
    rcases hc with rfl | rfl <;>
      · simp only [tokenizeGo]
        norm_num +decide [isWhite, isDigit, isOperator]
        cases hz : needZero acc <;> simp [hz]
  · intro acc
    unfold needZero
    rcases h : acc.getLast? with _ | t
    · simp
    · cases t <;> simp
  · intro fuel cs acc c hc
    rcases hc with rfl | rfl <;>
      · simp only [tokenizeGo]
        norm_num +decide [isWhite, isDigit, isOperator]
  · have h1 : tokenize "-5+2".toList
        = .ok [.num ['0'], .op '-', .num ['5'], .op '+', .num ['2']] := rfl
    have h2 : toRPN [.num ['0'], .op '-', .num ['5'], .op '+', .num ['2']]
        = .ok [.num ['0'], .num ['5'], .op '-', .num ['2'], .op '+'] := rfl
    rw [evaluateExpression_pipeline h1 (by simp), h2, except_bind_ok]
    norm_num +decide [evalRPN, evalSteps, evalStep, applyBin, jsNum, natOfDigits,
      digitVal0, digitVal5, digitVal2, JNum.sub, JNum.add, Except.bind, Except.map]

/-- Witness for C2: the unary-zero step applied at a lone `+` with an
empty prior-token list, and the plain-operator step at a lone `*`. -/
theorem claim_C2_unary_normalization_witness :
    tokenizeGo 1 ['+'] []
      = tokenizeGo 0 []
          ([] ++ if needZero [] then [Tok.num ['0'], Tok.op '+'] else [Tok.op '+'])
    ∧ tokenizeGo 1 ['*'] [] = tokenizeGo 0 [] ([] ++ [Tok.op '*']) :=
  ⟨claim_C2_unary_normalization.1 0 [] [] '+' (Or.inl rfl),
   claim_C2_unary_normalization.2.2.1 0 [] [] '*' (Or.inl rfl)⟩

/-- C3: the converter sends every `Percent` token straight to the output
followed immediately by a synthetic `Operator(%)`, leaving the operator
stack untouched; in the evaluator `Operator(%)` pops one value `a` and
pushes `a / 100`, failing with the stack-underflow error on an empty
stack; consequently `50%` evaluates to `0.5`. -/
theorem claim_C3_percent :
    (∀ (ts out ops : List Tok),
      shuntGo (Tok.percent :: ts) out ops
        = shuntGo ts (out ++ [Tok.percent, Tok.op '%']) ops)
    ∧ evalStep [] (Tok.op '%') = .error .stackUnderflow
    ∧ (∀ (a : JNum) (st : List JNum),
        evalStep (a :: st) (Tok.op '%') = .ok (a.div (.fin 100) :: st))
    ∧ evaluateExpression "50%".toList = .ok (.fin (1/2)) := by
  refine ⟨fun ts out ops => rfl, rfl, fun a st => rfl, ?_⟩
  have h1 : tokenize "50%".toList = .ok [.num ['5','0'], .percent] := rfl
  have h2 : toRPN [.num ['5','0'], .percent]
      = .ok [.num ['5','0'], .percent, .op '%'] := rfl
  rw [evaluateExpression_pipeline h1 (by simp), h2, except_bind_ok]
  norm_num +decide [evalRPN, evalSteps, evalStep, applyBin, jsNum, natOfDigits,
    digitVal5, digitVal0, JNum.div, Except.bind, Except.map]

/-- C4: at every division step, a popped divisor equal to 0 aborts with
the divide-by-zero error (nothing is pushed, so no infinite value
arises); a nonzero divisor pushes `a / b`; and `5/0` fails with the
divide-by-zero error. -/
theorem claim_C4_divide_by_zero :
    (∀ (b a : JNum) (st : List JNum), b = .fin 0 →
      evalStep (b :: a :: st) (Tok.op '/') = .error .divideByZero)
    ∧ (∀ (b a : JNum) (st : List JNum), b ≠ .fin 0 →
      evalStep (b :: a :: st) (Tok.op '/') = .ok (a.div b :: st))
    ∧ evaluateExpression "5/0".toList = .error .divideByZero := by
  refine ⟨?_, ?_, ?_⟩
  · intro b a st hb
    subst hb
    simp +decide [evalStep, applyBin, except_map_error]
  · intro b a st hb
    simp +decide [evalStep, applyBin, hb, except_map_ok]
  · have h1 : tokenize "5/0".toList = .ok [.num ['5'], .op '/', .num ['0']] := rfl
    have h2 : toRPN [.num ['5'], .op '/', .num ['0']]
        = .ok [.num ['5'], .num ['0'], .op '/'] := rfl
    rw [evaluateExpression_pipeline h1 (by simp), h2, except_bind_ok]
    norm_num +decide [evalRPN, evalSteps, evalStep, applyBin, jsNum, natOfDigits,
      digitVal5, digitVal0, Except.bind, Except.map]

/-- Witness for C4: the zero and nonzero division steps at concrete
stacks. -/
theorem claim_C4_divide_by_zero_witness :
    evalStep [.fin 0, .fin 5] (Tok.op '/') = .error .divideByZero
    ∧ evalStep [.fin 2, .fin 5] (Tok.op '/') = .ok ((JNum.fin 5).div (.fin 2) :: []) :=
  ⟨claim_C4_divide_by_zero.1 (.fin 0) (.fin 5) [] rfl,
   claim_C4_divide_by_zero.2.1 (.fin 2) (.fin 5) [] (by norm_num)⟩

/-! ## Helper lemmas: parenthesis balance (claim C5) -/

theorem popOps_spec (c : Char) (ops : List Tok) :
    (popOps c ops).1 ++ (popOps c ops).2 = ops
      ∧ ∀ t ∈ (popOps c ops).1, ∃ d, t = Tok.op d := by
  induction ops with
  | nil => exact ⟨rfl, by simp [popOps]⟩
  | cons t rest ih =>
    match t with
    | .op d =>
      cases hsp : shouldPop c d with
      | false => simp [popOps, hsp]
      | true =>
        constructor
        · simp only [popOps, hsp, if_true, List.cons_append]
          rw [ih.1]
        · simp only [popOps, hsp, if_true]
          intro u hu
          rcases List.mem_cons.mp hu with rfl | hu
          · exact ⟨d, rfl⟩
          · exact ih.2 u hu
    | .num s => simp [popOps]
    | .func f => simp [popOps]
    | .percent => simp [popOps]
    | .lparen => simp [popOps]
    | .rparen => simp [popOps]

theorem popToLParen_none_iff (ops : List Tok) :
    popToLParen ops = none ↔ Tok.lparen ∉ ops := by
  induction ops with
  | nil => simp [popToLParen]
  | cons t rest ih =>
    match t with
    | .lparen => simp [popToLParen]
    | .num s => simp [popToLParen, ih]
    | .op c => simp [popToLParen, ih]
    | .func f => simp [popToLParen, ih]
    | .percent => simp [popToLParen, ih]
    | .rparen => simp [popToLParen, ih]

theorem popToLParen_some (ops p r : List Tok)
    (h : popToLParen ops = some (p, r)) :
    ops = p ++ Tok.lparen :: r ∧ Tok.lparen ∉ p := by
  induction ops generalizing p r with
  | nil => exact absurd h (by simp [popToLParen])
  | cons t rest ih =>
    cases t with
    | lparen =>
      obtain ⟨rfl, rfl⟩ : p = [] ∧ rest = r := by
        simpa [popToLParen] using h
      simp
    | num s =>
      have h' : (popToLParen rest).map (fun pr => (Tok.num s :: pr.1, pr.2))
          = some (p, r) := h
      cases hrec : popToLParen rest with
      | none => rw [hrec] at h'; exact absurd h' (by simp)
      | some pr =>
        rw [hrec] at h'
        obtain ⟨rfl, rfl⟩ : p = Tok.num s :: pr.1 ∧ r = pr.2 := by
          simpa using h'.symm
        obtain ⟨h1, h2⟩ := ih pr.1 pr.2 (by rw [hrec])
        exact ⟨by rw [List.cons_append, ← h1], by simp [h2]⟩
    | op c =>
      have h' : (popToLParen rest).map (fun pr => (Tok.op c :: pr.1, pr.2))
          = some (p, r) := h
      cases hrec : popToLParen rest with
      | none => rw [hrec] at h'; exact absurd h' (by simp)
      | some pr =>
        rw [hrec] at h'
        obtain ⟨rfl, rfl⟩ : p = Tok.op c :: pr.1 ∧ r = pr.2 := by
          simpa using h'.symm
        obtain ⟨h1, h2⟩ := ih pr.1 pr.2 (by rw [hrec])
        exact ⟨by rw [List.cons_append, ← h1], by simp [h2]⟩
    | func f =>
      have h' : (popToLParen rest).map (fun pr => (Tok.func f :: pr.1, pr.2))
          = some (p, r) := h
      cases hrec : popToLParen rest with
      | none => rw [hrec] at h'; exact absurd h' (by simp)
      | some pr =>
        rw [hrec] at h'
        obtain ⟨rfl, rfl⟩ : p = Tok.func f :: pr.1 ∧ r = pr.2 := by
          simpa using h'.symm
        obtain ⟨h1, h2⟩ := ih pr.1 pr.2 (by rw [hrec])
        exact ⟨by rw [List.cons_append, ← h1], by simp [h2]⟩
    | percent =>
      have h' : (popToLParen rest).map (fun pr => (Tok.percent :: pr.1, pr.2))
          = some (p, r) := h
      cases hrec : popToLParen rest with
      | none => rw [hrec] at h'; exact absurd h' (by simp)
      | some pr =>
        rw [hrec] at h'
        obtain ⟨rfl, rfl⟩ : p = Tok.percent :: pr.1 ∧ r = pr.2 := by
          simpa using h'.symm
        obtain ⟨h1, h2⟩ := ih pr.1 pr.2 (by rw [hrec])
        exact ⟨by rw [List.cons_append, ← h1], by simp [h2]⟩
    | rparen =>
      have h' : (popToLParen rest).map (fun pr => (Tok.rparen :: pr.1, pr.2))
          = some (p, r) := h
      cases hrec : popToLParen rest with
      | none => rw [hrec] at h'; exact absurd h' (by simp)
      | some pr =>
        rw [hrec] at h'
        obtain ⟨rfl, rfl⟩ : p = Tok.rparen :: pr.1 ∧ r = pr.2 := by
          simpa using h'.symm
        obtain ⟨h1, h2⟩ := ih pr.1 pr.2 (by rw [hrec])
        exact ⟨by rw [List.cons_append, ← h1], by simp [h2]⟩

theorem flushOps_error_iff (out ops : List Tok) :
    flushOps out ops = .error .mismatchedParen
      ↔ (Tok.lparen ∈ ops ∨ Tok.rparen ∈ ops) := by
  induction ops generalizing out with
  | nil => simp [flushOps]
  | cons t rest ih =>
    by_cases h : t = Tok.lparen ∨ t = Tok.rparen
    · rcases h with rfl | rfl <;> simp [flushOps]
    · obtain ⟨h1, h2⟩ := not_or.mp h
      simp only [flushOps]
      rw [if_neg (by simp [h1, h2]), ih]
      simp [List.mem_cons, Ne.symm h1, Ne.symm h2]

theorem count_lparen_zero_of_ops {l : List Tok}
    (h : ∀ t ∈ l, ∃ d, t = Tok.op d) : l.count Tok.lparen = 0 := by
  rw [List.count_eq_zero]
  intro hmem
  obtain ⟨d, hd⟩ := h Tok.lparen hmem
  exact absurd hd (by simp)

/-- The converter reports a mismatched parenthesis exactly when the
remaining tokens are not Dyck-balanced relative to the left parentheses
already pending on the stack. -/
theorem shuntGo_mismatch_iff :
    ∀ (ts out ops : List Tok), Tok.rparen ∉ ops →
      (shuntGo ts out ops = .error .mismatchedParen
        ↔ parenBal ts (ops.count Tok.lparen) = false) := by
  intro ts
  induction ts with
  | nil =>
    intro out ops hr
    have hflush : shuntGo [] out ops = flushOps out ops := rfl
    rw [hflush, flushOps_error_iff]
    simp only [parenBal]
    constructor
    · rintro (hl | hrp)
      · simp only [beq_eq_false_iff_ne, ne_eq, List.count_eq_zero]
        simpa using hl
      · exact absurd hrp hr
    · intro h
      left
      by_contra hnot
      rw [List.count_eq_zero.mpr hnot] at h
      simp at h
  | cons t ts ih =>
    intro out ops hr
    cases t with
    | num s =>
      have hstep : shuntGo (Tok.num s :: ts) out ops
          = shuntGo ts (out ++ [Tok.num s]) ops := rfl
      rw [hstep, ih (out ++ [Tok.num s]) ops hr]
      simp [parenBal]
    | percent =>
      have hstep : shuntGo (Tok.percent :: ts) out ops
          = shuntGo ts (out ++ [Tok.percent, Tok.op '%']) ops := rfl
      rw [hstep, ih _ ops hr]
      simp [parenBal]
    | func f =>
      have hstep : shuntGo (Tok.func f :: ts) out ops
          = shuntGo ts out (Tok.func f :: ops) := rfl
      rw [hstep, ih out (Tok.func f :: ops) (by simp [hr])]
      simp [parenBal, List.count_cons]
    | lparen =>
      have hstep : shuntGo (Tok.lparen :: ts) out ops
          = shuntGo ts out (Tok.lparen :: ops) := rfl
      rw [hstep, ih out (Tok.lparen :: ops) (by simp [hr])]
      simp [parenBal, List.count_cons]
    | op c =>
      have hstep : shuntGo (Tok.op c :: ts) out ops
          = shuntGo ts (out ++ (popOps c ops).1) (Tok.op c :: (popOps c ops).2) := rfl
      obtain ⟨hsplit, hops⟩ := popOps_spec c ops
      have hr2 : Tok.rparen ∉ (popOps c ops).2 := by
        intro hmem
        exact hr (by rw [← hsplit]; exact List.mem_append_right _ hmem)
      have hcount : (Tok.op c :: (popOps c ops).2).count Tok.lparen
          = ops.count Tok.lparen := by
        have h1 := count_lparen_zero_of_ops hops
        have h2 : ops.count Tok.lparen
            = ((popOps c ops).1 ++ (popOps c ops).2).count Tok.lparen := by
          rw [hsplit]
        rw [h2, List.count_append, h1, List.count_cons]
        simp
      rw [hstep, ih _ _ (by simp [hr2]), hcount]
      simp [parenBal]
    | rparen =>
      cases hpop : popToLParen ops with
      | none =>
        have hstep : shuntGo (Tok.rparen :: ts) out ops
            = .error .mismatchedParen := by
          have : shuntGo (Tok.rparen :: ts) out ops
              = match popToLParen ops with
                | none => .error .mismatchedParen
                | some pr =>
                  match pr.2 with
                  | Tok.func f :: rest' => shuntGo ts (out ++ pr.1 ++ [Tok.func f]) rest'
                  | rest' => shuntGo ts (out ++ pr.1) rest' := rfl
          rw [this, hpop]
        have hcnt : ops.count Tok.lparen = 0 := by
          rw [List.count_eq_zero]
          exact popToLParen_none_iff ops |>.mp hpop
        rw [hstep, hcnt]
        simp [parenBal]
      | some pr =>
        obtain ⟨hsplit, hnp⟩ := popToLParen_some ops pr.1 pr.2 (by rw [hpop])
        have hcnt : ops.count Tok.lparen = pr.2.count Tok.lparen + 1 := by
          rw [hsplit, List.count_append, List.count_cons]
          rw [List.count_eq_zero.mpr hnp]
          simp
        have hrpr : Tok.rparen ∉ pr.2 := by
          intro hmem
          exact hr (by rw [hsplit]; exact List.mem_append_right _ (List.mem_cons_of_mem _ hmem))
        have hbal : parenBal (Tok.rparen :: ts) (ops.count Tok.lparen)
            = parenBal ts (pr.2.count Tok.lparen) := by
          rw [hcnt]
          simp [parenBal]
        have hstep : shuntGo (Tok.rparen :: ts) out ops
            = match pr.2 with
              | Tok.func f :: rest' => shuntGo ts (out ++ pr.1 ++ [Tok.func f]) rest'
              | rest' => shuntGo ts (out ++ pr.1) rest' := by
          have : shuntGo (Tok.rparen :: ts) out ops
              = match popToLParen ops with
                | none => .error .mismatchedParen
                | some pr =>
                  match pr.2 with
                  | Tok.func f :: rest' => shuntGo ts (out ++ pr.1 ++ [Tok.func f]) rest'
                  | rest' => shuntGo ts (out ++ pr.1) rest' := rfl
          rw [this, hpop]
        rw [hstep, hbal]
        match hpr2 : pr.2 with
        | [] => exact ih (out ++ pr.1) [] (by simp)
        | Tok.func f :: rest' =>
          have := ih (out ++ pr.1 ++ [Tok.func f]) rest'
            (fun hmem => hrpr (by rw [hpr2]; exact List.mem_cons_of_mem _ hmem))
          rw [this]
          simp [List.count_cons]
        | Tok.num s :: rest' => exact ih (out ++ pr.1) _ (by rw [← hpr2]; exact hrpr)
        | Tok.op c :: rest' => exact ih (out ++ pr.1) _ (by rw [← hpr2]; exact hrpr)
        | Tok.percent :: rest' => exact ih (out ++ pr.1) _ (by rw [← hpr2]; exact hrpr)
        | Tok.lparen :: rest' => exact ih (out ++ pr.1) _ (by rw [← hpr2]; exact hrpr)
        | Tok.rparen :: rest' => exact ih (out ++ pr.1) _ (by rw [← hpr2]; exact hrpr)

theorem applyBin_ne_mismatch (c : Char) (a b : JNum) :
    applyBin c a b ≠ .error .mismatchedParen := by
  unfold applyBin
  split_ifs <;> simp

theorem callFunc_ne_mismatch (f : List Char) (a : JNum) :
    callFunc f a ≠ .error .mismatchedParen := by
  unfold callFunc
  split_ifs <;> simp

theorem evalStep_ne_mismatch (st : List JNum) (t : Tok) :
    evalStep st t ≠ .error .mismatchedParen := by
  cases t with
  | num s => simp [evalStep]
  | percent => simp [evalStep]
  | lparen => simp [evalStep]
  | rparen => simp [evalStep]
  | op c =>
    simp only [evalStep]
    split_ifs with h
    · match st with
      | [] => simp
      | a :: rest => simp
    · match st with
      | [] => simp
      | [a] => simp
      | b :: a :: rest =>
        intro hcontra
        have hc2 : Except.map (fun x => x :: rest) (applyBin c a b)
            = Except.error EvalErr.mismatchedParen := hcontra
        cases hab : applyBin c a b with
        | error e =>
          rw [hab, except_map_error] at hc2
          have he : e = .mismatchedParen := by
            simpa using hc2
          exact applyBin_ne_mismatch c a b (by rw [hab, he])
        | ok v =>
          rw [hab, except_map_ok] at hc2
          exact absurd hc2 (by simp)
  | func f =>
    simp only [evalStep]
    match st with
    | [] => simp
    | a :: rest =>
      intro hcontra
      have hc2 : Except.map (fun x => x :: rest) (callFunc f a)
          = Except.error EvalErr.mismatchedParen := hcontra
      cases hcf : callFunc f a with
      | error e =>
        rw [hcf, except_map_error] at hc2
        have he : e = .mismatchedParen := by
          simpa using hc2
        exact callFunc_ne_mismatch f a (by rw [hcf, he])
      | ok v =>
        rw [hcf, except_map_ok] at hc2
        exact absurd hc2 (by simp)

theorem evalSteps_ne_mismatch (rpn : List Tok) (st : List JNum) :
    evalSteps rpn st ≠ .error .mismatchedParen := by
  induction rpn generalizing st with
  | nil => simp [evalSteps]
  | cons t rest ih =>
    intro hcontra
    have hstep : evalSteps (t :: rest) st = (evalStep st t).bind (evalSteps rest) := rfl
    rw [hstep] at hcontra
    cases hes : evalStep st t with
    | error e =>
      rw [hes, except_bind_error] at hcontra
      have he : e = .mismatchedParen := by
        simpa using hcontra
      exact evalStep_ne_mismatch st t (by rw [hes, he])
    | ok st' =>
      rw [hes, except_bind_ok] at hcontra
      exact ih st' hcontra

theorem evalRPN_ne_mismatch (rpn : List Tok) :
    evalRPN rpn ≠ .error .mismatchedParen := by
  intro hcontra
  unfold evalRPN at hcontra
  cases hes : evalSteps rpn [] with
  | error e =>
    rw [hes, except_bind_error] at hcontra
    have he : e = .mismatchedParen := by
      simpa using hcontra
    exact evalSteps_ne_mismatch rpn [] (by rw [hes, he])
  | ok st =>
    rw [hes, except_bind_ok] at hcontra
    match st, hcontra with
    | [], hcontra =>
      exact absurd (show (Except.error EvalErr.malformedExpression : Except EvalErr JNum)
        = Except.error EvalErr.mismatchedParen from hcontra) (by simp)
    | [v], hcontra => exact absurd hcontra (by simp)
    | v₁ :: v₂ :: rest, hcontra =>
      exact absurd (show (Except.error EvalErr.malformedExpression : Except EvalErr JNum)
        = Except.error EvalErr.mismatchedParen from hcontra) (by simp)

/-- C5: the converter fails with the mismatched-parenthesis error
exactly on token strings whose parentheses are not Dyck-balanced
(`parenBal`); every unbalanced input fails already during conversion —
the evaluator can never produce that error — and `(2+3` fails with it. -/
theorem claim_C5_mismatched_paren :
    (∀ ts : List Tok,
      toRPN ts = .error .mismatchedParen ↔ parenBal ts 0 = false)
    ∧ (∀ (s : List Char) (ts : List Tok), tokenize s = .ok ts →
        parenBal ts 0 = false →
        evaluateExpression s = .error .mismatchedParen)
    ∧ (∀ rpn : List Tok, evalRPN rpn ≠ .error .mismatchedParen)
    ∧ evaluateExpression "(2+3".toList = .error .mismatchedParen := by
  have hiff : ∀ ts : List Tok,
      toRPN ts = .error .mismatchedParen ↔ parenBal ts 0 = false := by
    intro ts
    have := shuntGo_mismatch_iff ts [] [] (by simp)
    simpa [toRPN] using this
  refine ⟨hiff, ?_, evalRPN_ne_mismatch, ?_⟩
  · intro s ts htok hbal
    have hne : ts ≠ [] := by
      intro h
      subst h
      simp [parenBal] at hbal
    rw [evaluateExpression_pipeline htok hne, (hiff ts).mpr hbal, except_bind_error]
  · have h1 : tokenize "(2+3".toList
        = .ok [.lparen, .num ['2'], .op '+', .num ['3']] := rfl
    have h2 : toRPN [.lparen, .num ['2'], .op '+', .num ['3']]
        = .error .mismatchedParen := rfl
    rw [evaluateExpression_pipeline h1 (by simp), h2, except_bind_error]

/-- Witness for C5: the unbalanced-input conjunct applied to `(2+3`,
whose tokenization and imbalance are computed outright. -/
theorem claim_C5_mismatched_paren_witness :
    evaluateExpression "(2+3".toList = .error .mismatchedParen :=
  claim_C5_mismatched_paren.2.1 "(2+3".toList
    [.lparen, .num ['2'], .op '+', .num ['3']] rfl rfl

/-- C6: on a `Function` token the evaluator first pops one value
(failing with the missing-argument error on an empty stack), then looks
the name up in the function table (failing with the unknown-function
error carrying the name when absent) and pushes the transform's result;
the table contains `sqrt`, so `sqrt(9)` evaluates to `3`. -/
theorem claim_C6_functions :
    (∀ name : List Char, evalStep [] (Tok.func name) = .error .functionArgMissing)
    ∧ (∀ (name : List Char) (a : JNum) (st : List JNum), name ≠ "sqrt".toList →
        evalStep (a :: st) (Tok.func name) = .error (.unknownFunction name))
    ∧ (∀ (a : JNum) (st : List JNum),
        evalStep (a :: st) (Tok.func "sqrt".toList) = .ok (a.sqrt :: st))
    ∧ evaluateExpression "sqrt(9)".toList = .ok (.fin 3) := by
  refine ⟨fun name => rfl, ?_, fun a st => rfl, ?_⟩
  · intro name a st hname
    have : evalStep (a :: st) (Tok.func name)
        = Except.map (· :: st) (callFunc name a) := rfl
    rw [this]
    rw [show callFunc name a = .error (.unknownFunction name) from by
      have hname' : ¬ name = ['s','q','r','t'] := by simpa using hname
      simp [callFunc, hname']]
    exact except_map_error _ _
  · have h1 : tokenize "sqrt(9)".toList
        = .ok [.func "sqrt".toList, .lparen, .num ['9'], .rparen] := rfl
    have h2 : toRPN [.func "sqrt".toList, .lparen, .num ['9'], .rparen]
        = .ok [.num ['9'], .func "sqrt".toList] := rfl
    rw [evaluateExpression_pipeline h1 (by simp), h2, except_bind_ok]
    norm_num +decide [evalRPN, evalSteps, evalStep, callFunc, jsNum, natOfDigits,
      digitVal9, JNum.sqrt, Except.bind, Except.map,
      show (9:ℤ).toNat = 9 from rfl,
      show Nat.sqrt 9 = 3 from by rw [show (9:ℕ) = 3*3 from rfl, Nat.sqrt_eq],
      show Nat.sqrt 1 = 1 from by rw [show (1:ℕ) = 1*1 from rfl, Nat.sqrt_eq]]

/-- Witness for C6: the unknown-function conjunct at the one-letter name
`f`, every hypothesis computed. -/
theorem claim_C6_functions_witness :
    evalStep [JNum.fin 1] (Tok.func ['f'])
      = .error (.unknownFunction ['f']) :=
  claim_C6_functions.2.1 ['f'] (.fin 1) [] (by decide)

/-- C7: after the evaluator consumes the whole RPN sequence, a final
stack holding exactly one value yields that value; any other final count
fails with the malformed-expression error. -/
theorem claim_C7_final_stack :
    ∀ (rpn : List Tok) (st : List JNum), evalSteps rpn [] = .ok st →
      (∀ v, st = [v] → evalRPN rpn = .ok v)
      ∧ (st.length ≠ 1 → evalRPN rpn = .error .malformedExpression) := by
  intro rpn st hst
  constructor
  · rintro v rfl
    unfold evalRPN
    rw [hst, except_bind_ok]
  · intro hlen
    unfold evalRPN
    rw [hst, except_bind_ok]
    match st, hlen with
    | [], _ => rfl
    | [v], hlen => exact absurd rfl hlen
    | v₁ :: v₂ :: rest, _ => rfl

/-- Witness for C7: a two-value final stack (RPN `1 1`) gives the
malformed-expression error; a one-value stack (RPN `1`) gives the value. -/
theorem claim_C7_final_stack_witness :
    evalRPN [Tok.num ['1'], Tok.num ['1']] = .error .malformedExpression
    ∧ evalRPN [Tok.num ['1']] = .ok (jsNum ['1']) :=
  ⟨(claim_C7_final_stack [Tok.num ['1'], Tok.num ['1']]
      [jsNum ['1'], jsNum ['1']] rfl).2 (by simp),
   (claim_C7_final_stack [Tok.num ['1']] [jsNum ['1']] rfl).1 (jsNum ['1']) rfl⟩

/-- Rounding helper for claim C8: any integer within 1/2 of `q` is
`Math.round(q)`. -/
theorem jsRound_eq_of_close {q : ℚ} {k : ℤ} (h : |q - (k:ℚ)| < 1/2) :
    jsRound q = k := by
  obtain ⟨h1, h2⟩ := abs_lt.mp h
  unfold jsRound
  rw [Int.floor_eq_iff]
  constructor
  · linarith
  · linarith

/-- C8: formatting renders every non-finite value as the literal string
`Error`; a finite value within 1e-12 of an integer renders as that
integer's decimal string with no fractional part; any other finite value
renders as its 12-fractional-digit fixed decimal with trailing zeros
(and a then-trailing decimal point) stripped; and the number parsed from
`4` formats back to `4`. -/
theorem claim_C8_formatting :
    formatNumber .nan = "Error".toList
    ∧ (∀ (q : ℚ) (k : ℤ), |q - (k:ℚ)| < 1/10^12 →
        formatNumber (.fin q) = intToString k)
    ∧ (∀ q : ℚ, (∀ k : ℤ, 1/10^12 ≤ |q - (k:ℚ)|) →
        formatNumber (.fin q) = stripTrailingZeros (toFixed12 q))
    ∧ formatNumber (jsNum ['4']) = "4".toList := by
  refine ⟨rfl, ?_, ?_, ?_⟩
  · intro q k h
    have hk : jsRound q = k := jsRound_eq_of_close (lt_of_lt_of_le h (by norm_num))
    simp only [formatNumber, hk]
    rw [if_pos h]
  · intro q h
    simp only [formatNumber]
    rw [if_neg (not_lt.mpr (h (jsRound q)))]
  · have hj : jsNum ['4'] = .fin 4 := by
      norm_num +decide [jsNum, natOfDigits, digitVal4, isNumChar, isDigit]
    rw [hj]
    have hr : jsRound 4 = 4 := by norm_num [jsRound]
    simp only [formatNumber, hr]
    rw [if_pos (by norm_num)]
    rfl

/-- Witness for C8: the integer branch at `q = 0, k = 0` and the
fixed-decimal branch at `q = 1/2` (no integer is within 1e-12 of 1/2). -/
theorem claim_C8_formatting_witness :
    formatNumber (.fin 0) = intToString 0
    ∧ formatNumber (.fin (1/2)) = stripTrailingZeros (toFixed12 (1/2)) := by
  constructor
  · exact claim_C8_formatting.2.1 0 0 (by norm_num)
  · apply claim_C8_formatting.2.2.1 (1/2)
    intro k
    have hk : (k:ℚ) ≤ 0 ∨ 1 ≤ (k:ℚ) := by
      rcases (by omega : k ≤ 0 ∨ 1 ≤ k) with h | h
      · exact Or.inl (by exact_mod_cast h)
      · exact Or.inr (by exact_mod_cast h)
    have hhalf : (1:ℚ)/10^12 ≤ 1/2 := by norm_num
    rcases hk with h | h
    · rw [abs_of_nonneg (by linarith)]
      linarith
    · rw [abs_of_nonpos (by linarith)]
      linarith

/-- A number-run character is never whitespace. -/
theorem isWhite_eq_false_of_numChar {c : Char} (hc : isNumChar c = true) :
    isWhite c = false := by
  rcases (by simpa [isNumChar] using hc : isDigit c = true ∨ c = '.') with hd | rfl
  · by_contra hw
    have hw' : isWhite c = true := by
      cases hwc : isWhite c
      · exact absurd hwc hw
      · rfl
    have hcases : ((((c = ' ' ∨ c = '\t') ∨ c = '\n') ∨ c = '\x0d') ∨ c = '\x0b')
        ∨ c = '\x0c' := by
      simpa [isWhite] using hw'
    rcases hcases with ⟨⟨⟨⟨rfl | rfl⟩ | rfl⟩ | rfl⟩ | rfl⟩ | rfl <;>
      exact absurd hd (by decide)
  · rfl

/-- A nonempty run of digits and dots tokenizes as one `Number` token
holding the whole run. -/
theorem tokenize_numrun {s : List Char} (hne : s ≠ [])
    (hnum : ∀ c ∈ s, isNumChar c = true) :
    tokenize s = .ok [.num s] := by
  match s, hne with
  | c :: cs, _ =>
    have hc := hnum c (List.mem_cons_self c cs)
    have hcs : ∀ d ∈ cs, isNumChar d = true :=
      fun d hd => hnum d (List.mem_cons_of_mem c hd)
    have hzero : ∀ (n : ℕ) (acc : List Tok), tokenizeGo n [] acc = .ok acc := by
      intro n acc
      cases n <;> rfl
    unfold tokenize
    have hlen : (c :: cs).length = cs.length + 1 := rfl
    rw [hlen]
    simp only [tokenizeGo]
    rw [if_neg (by rw [isWhite_eq_false_of_numChar hc]; exact Bool.false_ne_true)]
    rw [if_pos (show (isDigit c || c = '.' : Bool) = true from hc)]
    rw [show cs.dropWhile isNumChar = [] from List.dropWhile_eq_nil_iff.mpr hcs]
    rw [show cs.takeWhile isNumChar = cs from List.takeWhile_eq_self_iff.mpr hcs]
    rw [hzero]
    rfl

/-- A run with two or more dots converts to NaN. -/
theorem jsNum_multidot {s : List Char} (hne : s ≠ [])
    (hnum : ∀ c ∈ s, isNumChar c = true) (hdots : 2 ≤ s.count '.') :
    jsNum s = .nan := by
  unfold jsNum
  rw [if_neg hne]
  rw [if_neg (not_not_intro (show s.all isNumChar = true from List.all_eq_true.mpr hnum))]
  rw [if_pos hdots]

/-- C9: numeric text containing two or more dots is accepted by the
tokenizer as a single `Number` token with no lexical error; at
evaluation time it parses to a non-finite value which the evaluator
returns unchanged, so the whole evaluation yields the non-finite value
that formatting renders as `Error` — no lex-time error is raised. -/
theorem claim_C9_multidot_numbers :
    (∀ s : List Char, s ≠ [] → (∀ c ∈ s, isNumChar c = true) →
      2 ≤ s.count '.' →
      tokenize s = .ok [.num s] ∧ jsNum s = .nan
        ∧ evaluateExpression s = .ok .nan)
    ∧ formatNumber .nan = "Error".toList
    ∧ tokenize "1.2.3".toList = .ok [.num "1.2.3".toList]
    ∧ evaluateExpression "1.2.3".toList = .ok .nan := by
  have main : ∀ s : List Char, s ≠ [] → (∀ c ∈ s, isNumChar c = true) →
      2 ≤ s.count '.' →
      tokenize s = .ok [.num s] ∧ jsNum s = .nan
        ∧ evaluateExpression s = .ok .nan := by
    intro s hne hnum hdots
    have htok := tokenize_numrun hne hnum
    have hnan := jsNum_multidot hne hnum hdots
    refine ⟨htok, hnan, ?_⟩
    rw [evaluateExpression_pipeline htok (by simp)]
    have h2 : toRPN [Tok.num s] = .ok [Tok.num s] := rfl
    rw [h2, except_bind_ok]
    have h3 : evalRPN [Tok.num s] = .ok (jsNum s) := rfl
    rw [h3, hnan]
  exact ⟨main, rfl, rfl,
    (main "1.2.3".toList (by decide) (by decide) (by decide)).2.2⟩

/-- Witness for C9: the universal conjunct applied to the literal text
`1.2.3`, every hypothesis decided. -/
theorem claim_C9_multidot_numbers_witness :
    tokenize "1.2.3".toList = .ok [.num "1.2.3".toList]
    ∧ jsNum "1.2.3".toList = .nan
    ∧ evaluateExpression "1.2.3".toList = .ok .nan :=
  claim_C9_multidot_numbers.1 "1.2.3".toList (by decide) (by decide) (by decide)

/-- C10: an empty or all-whitespace input makes `evaluateExpression`
return 0 with no error, short-circuiting before the tokenizer, converter
and evaluator run — the pipeline on the empty token string would instead
end in the malformed-expression error from the empty RPN. -/
theorem claim_C10_blank_input :
    (∀ s : List Char, s = [] ∨ strTrim s = [] →
      evaluateExpression s = .ok (.fin 0))
    ∧ tokenize [] = .ok []
    ∧ toRPN [] = .ok []
    ∧ evalRPN [] = .error .malformedExpression := by
  refine ⟨?_, rfl, rfl, rfl⟩
  intro s h
  rcases h with rfl | h
  · rfl
  · unfold evaluateExpression
    rw [if_pos (by simp [h])]

/-- Witness for C10: the blank-input conjunct applied to two spaces. -/
theorem claim_C10_blank_input_witness :
    evaluateExpression "  ".toList = .ok (.fin 0) :=
  claim_C10_blank_input.1 "  ".toList (Or.inr rfl)

end Cal
